import Mathlib

/-!
Verification of the workerpool repository: a shallow embedding of the
growable ring-buffer queue (queue.go) and of the three-queue thread pool
(thread_pool.go, the Wait-based variant), together with proofs and
refutations of the specification claims.

Conventions of the embedding:
* Go slices become Lean lists; `buf` has length `cap` in every reachable
  state.  Go `copy(dst, src)` becomes `goCopy`, which overwrites a prefix
  of `dst` with a prefix of `src` (min of the two lengths).
* Go `int32`/`uint32` fields that stay small in every reachable state
  (`front`, `back`, `count`, the metric counters) are modelled as `Nat`.
  `cap` doubling (`q.cap << 1` on `uint32`) is modelled as `q.cap * 2`;
  the wrap could only fire for a queue of at least 2^31 live elements.
  In `ceilPow2` the `uint32` wraparound is observable for ordinary inputs
  (x = 0 or x > 2^31), so there the arithmetic carries an explicit
  `% 2^32`.
* A Go `panic` (fatal precondition violation) is modelled by returning
  `none` from the operation.
* A possibly-nil `*Queue[T]` receiver is modelled as `Option (Queue T)`:
  the methods that begin with an explicit `q == nil` check (`Cap`, `Empty`,
  `Len`, `Left`, `Push`) are defined on `Option (Queue T)`.
-/

namespace WorkerPool

/-- The minimal capacity `queueMinCap` a queue allocates on first `Push`
when it was constructed without a size hint (queue.go line 7). -/
def queueMinCap : Nat := 64

/-- The ring-buffer queue of queue.go: backing store `buf` of capacity
`cap`, `front`/`back` slot indices and occupancy `count`. -/
structure Queue (T : Type) where
  front : Nat
  back : Nat
  count : Nat
  cap : Nat
  buf : List T
deriving Repr, DecidableEq

/-- Go's built-in `copy(dst, src)`: overwrite `dst[0:n]` with `src[0:n]`
where `n = min (len dst) (len src)`, keeping the rest of `dst`. -/
def goCopy {T : Type} (dst src : List T) : List T :=
  src.take dst.length ++ dst.drop (min src.length dst.length)

/-- Go's `copy(dst[off:], src)`: copy `src` into `dst` starting at
offset `off`. -/
def goCopyAt {T : Type} (dst : List T) (off : Nat) (src : List T) : List T :=
  dst.take off ++ goCopy (dst.drop off) src

/-- Round a `uint32` up to the next power of two (queue.go `ceilPow2`):
decrement, smear the top bit right by or-ing in shifts of 1,2,4,8,16,
increment.  Both the decrement and the final increment wrap modulo 2^32
exactly as the Go `uint32` arithmetic does. -/
def ceilPow2 (x : Nat) : Nat :=
  let y0 := (x + (2 ^ 32 - 1)) % 2 ^ 32
  let y1 := y0 ||| (y0 >>> 1)
  let y2 := y1 ||| (y1 >>> 2)
  let y3 := y2 ||| (y2 >>> 4)
  let y4 := y3 ||| (y3 >>> 8)
  let y5 := y4 ||| (y4 >>> 16)
  (y5 + 1) % 2 ^ 32

/-- Test whether a `uint32` is a power of two (queue.go `isPowerOf2`):
`x != 0 && x & (x-1) == 0`. -/
def isPowerOf2 (x : Nat) : Bool :=
  if x = 0 then false else x &&& (x - 1) == 0

/-- The constructor `NewQueue` (queue.go lines 17-36).  `d` stands for the
zero value of the element type that Go's `make` fills the slice with;
`size?` is the optional variadic capacity hint. -/
def NewQueue {T : Type} (d : T) (size? : Option Nat) : Queue T :=
  match size? with
  | none => { front := 0, back := 0, count := 0, cap := 0, buf := [] }
  | some s =>
    let c := if isPowerOf2 s then s else ceilPow2 s
    { front := 0, back := 0, count := 0, cap := c, buf := List.replicate c d }

namespace Queue

variable {T : Type}

/-- Advance a slot index modulo the capacity (queue.go `advance`).  Go
tests `pos == int32(cap) - 1`; over the naturals that test is
`pos + 1 == cap`, which agrees with the Go comparison for every `pos ≥ 0`
and `cap ≥ 0`. -/
def advance (q : Queue T) (pos : Nat) : Nat :=
  if pos + 1 = q.cap then 0 else pos + 1

/-- The reallocation step of `Push` (queue.go `grow`): allocate the
default capacity on first use, and when the buffer is full double the
capacity and copy the live range out in the two contiguous chunks
`buf[front:count]` then `buf[:back]`, resetting `front = 0`,
`back = count`. -/
def grow [Inhabited T] (q : Queue T) : Queue T :=
  let q :=
    if q.cap = 0 then
      { q with cap := queueMinCap, buf := List.replicate queueMinCap default }
    else q
  if q.count ≥ q.cap then
    let newCap := q.cap * 2
    let newBuf0 : List T := List.replicate newCap default
    let newBuf :=
      if q.back > q.front then
        goCopy newBuf0 ((q.buf.take q.back).drop q.front)
      else
        let seg1 := (q.buf.take q.count).drop q.front
        let nCopied := min seg1.length newBuf0.length
        goCopyAt (goCopy newBuf0 seg1) nCopied (q.buf.take q.back)
    { q with cap := newCap, buf := newBuf, back := q.count, front := 0 }
  else q

/-- `Push` on a non-nil receiver (queue.go lines 71-77): grow if needed,
write at `back`, advance `back`, bump `count`. -/
def push [Inhabited T] (q : Queue T) (item : T) : Queue T :=
  let q := q.grow
  { q with
    buf := q.buf.set q.back item
    back := q.advance q.back
    count := q.count + 1 }

/-- `Front` (queue.go lines 107-113): `none` models the fatal
precondition violation on an empty queue. -/
def Front [Inhabited T] (q : Queue T) : Option T :=
  if q.count = 0 then none else some (q.buf.getD q.front default)

/-- `Back` (queue.go lines 115-125): `none` models the fatal precondition
violation on an empty queue; when `back == 0` the code reads
`buf[count-1]`, otherwise `buf[back-1]`. -/
def Back [Inhabited T] (q : Queue T) : Option T :=
  if q.count = 0 then none
  else if q.back = 0 then some (q.buf.getD (q.count - 1) default)
  else some (q.buf.getD (q.back - 1) default)

/-- `Replace(pos, item)` (queue.go lines 139-149): `none` models the two
fatal precondition violations (empty queue; `pos < front` or
`pos >= count`), and otherwise the element at the raw buffer index `pos`
is overwritten.  `pos` is a Go `int`, hence `Int` here. -/
def Replace (q : Queue T) (pos : Int) (item : T) : Option (Queue T) :=
  if q.count = 0 then none
  else if pos < (q.front : Int) ∨ pos ≥ (q.count : Int) then none
  else some { q with buf := q.buf.set pos.toNat item }

/-- `Pop` (queue.go lines 151-166): `none` models the fatal precondition
violation on an empty queue; otherwise return the front element, zero its
slot, advance `front`, decrement `count`. -/
def pop [Inhabited T] (q : Queue T) : Option (T × Queue T) :=
  if q.count = 0 then none
  else
    some (q.buf.getD q.front default,
      { q with
        buf := q.buf.set q.front default
        front := q.advance q.front
        count := q.count - 1 })

/-- `Clear` (queue.go lines 175-185): reset the indices and the
occupancy, keeping the backing store and the capacity. -/
def Clear (q : Queue T) : Queue T :=
  if q.count = 0 then q else { q with front := 0, back := 0, count := 0 }

/-- The state `Pop` leaves behind (dropping the returned element);
`Pop` on an empty queue is a fatal violation, modelled as the identity
here only so that sequences of operations stay total. -/
def popDrop [Inhabited T] (q : Queue T) : Queue T :=
  match q.pop with
  | none => q
  | some (_, q1) => q1

/-- Push a whole list of items in order. -/
def pushAll [Inhabited T] (q : Queue T) (l : List T) : Queue T :=
  l.foldl push q

/-- The abstraction function: the live contents of the queue in logical
(FIFO) order, reading `count` slots starting at `front` and wrapping
modulo `cap`. -/
def toSeq [Inhabited T] (q : Queue T) : List T :=
  (List.range q.count).map (fun i => q.buf.getD ((q.front + i) % q.cap) default)

/-- Well-formedness of a queue state, as established by `NewQueue` and
preserved by every operation: the buffer has length `cap`, the occupancy
fits, an unallocated queue is pristine, and in an allocated queue `front`
and `back` are valid slots with `back` the slot `count` places after
`front`. -/
def wf (q : Queue T) : Prop :=
  q.buf.length = q.cap ∧
  q.count ≤ q.cap ∧
  (q.cap = 0 → q.count = 0 ∧ q.front = 0 ∧ q.back = 0 ∧ q.buf = []) ∧
  (0 < q.cap → q.front < q.cap ∧ q.back < q.cap ∧ q.back = (q.front + q.count) % q.cap)

instance instDecidableWf [DecidableEq T] (q : Queue T) : Decidable q.wf := by
  unfold wf
  infer_instance

/-- The write step at the end of `Push` (write at `back`, advance
`back`, bump `count`), as a named state transformer. -/
def pushWrite (q : Queue T) (item : T) : Queue T :=
  { q with
    buf := q.buf.set q.back item
    back := q.advance q.back
    count := q.count + 1 }

/-- The state `Pop` leaves behind on a non-empty queue: the front slot
zeroed, `front` advanced, `count` decremented. -/
def popRest [Inhabited T] (q : Queue T) : Queue T :=
  { q with
    buf := q.buf.set q.front default
    front := q.advance q.front
    count := q.count - 1 }

end Queue

/-- `Cap` on a possibly-nil receiver (queue.go lines 38-43). -/
def Cap {T : Type} (q? : Option (Queue T)) : Nat :=
  match q? with
  | none => 0
  | some q => q.cap

/-- `Empty` on a possibly-nil receiver (queue.go lines 45-50): a nil
queue reports `false`. -/
def Empty {T : Type} (q? : Option (Queue T)) : Bool :=
  match q? with
  | none => false
  | some q => q.count == 0

/-- `Len` on a possibly-nil receiver (queue.go lines 52-57). -/
def Len {T : Type} (q? : Option (Queue T)) : Nat :=
  match q? with
  | none => 0
  | some q => q.count

/-- `Left` on a possibly-nil receiver (queue.go lines 60-65):
`int32(q.Cap()) - q.Len()`. -/
def Left {T : Type} (q? : Option (Queue T)) : Int :=
  match q? with
  | none => 0
  | some q => (q.cap : Int) - (q.count : Int)

/-- `Push` on a possibly-nil receiver (queue.go lines 67-70): a nil queue
ignores the push. -/
def Push {T : Type} [Inhabited T] (q? : Option (Queue T)) (item : T) : Option (Queue T) :=
  match q? with
  | none => none
  | some q => some (q.push item)

/-!
The thread pool (thread_pool.go, the variant with `submitQueue`,
`waitingQueue`, `workQueue`, `processTasks`, `worker` and `Wait`).

Tasks are opaque side-effecting closures that the scheduler only invokes;
we model a task by a `Nat` identifier, and a possibly-nil `func()` by
`Option Nat`.  The three queues (thread-safe ring buffers, each operation
under one lock) are modelled as lists, one atomic step per queue
operation.  Modelled from the spec: the `TryPop` method the pool calls on
its queues is not among the source files (only its callers and tests
are); per the specification it returns false without mutation on an
empty queue and otherwise removes and returns the front element, which on
the list model is exactly head removal, as used in the step constructors
and in `drainLoop` below.  The coordinator goroutine, the workers, and the producer
thread (the code that calls `SubmitTask` and `Wait`) are interleaved by a
small-step relation; each step bundles one shared access together with
the purely thread-local control transfers around it, which only restricts
the set of schedules, so every trace of the relation is a schedule the Go
program can exhibit.
-/

/-- Program counter of the coordinator goroutine `processTasks`
(thread_pool.go lines 428-476). -/
inductive CoordPC where
  /-- Top of the `for running` loop. -/
  | loopHead
  /-- Inner drain loop: about to `TryPop` the waiting queue. -/
  | drainPop
  /-- Holding a task popped from the waiting queue, about to push it
  into the work queue. -/
  | drainPushWork (t : Nat)
  /-- About to `TryPop` the submit queue inside the drain loop. -/
  | drainPopSubmit
  /-- Holding a task popped from the submit queue inside the drain loop,
  about to push it into the waiting queue. -/
  | drainPushWaiting (t : Nat)
  /-- About to `TryPop` the submit queue in the dispatch branch. -/
  | popSubmit
  /-- Holding a submitted task, about to compare `threadCount` with
  `maxThreads`. -/
  | checkThreads (t : Nat)
  /-- `TryPop` on the submit queue failed; about to read `waiting`. -/
  | checkDone
  /-- The loop exited; blocked in `wg.Wait()`. -/
  | wgWait
  /-- `close(doneCh)` has run; the goroutine is gone. -/
  | finished
deriving Repr, DecidableEq

/-- Program counter of the producer thread: a list of tasks still to
submit, then the call to `Wait()`, then blocked on `doneCh`, then
returned from `Wait()`. -/
inductive MainPC where
  /-- Still has the listed tasks to feed to `SubmitTask`. -/
  | submits (pending : List (Option Nat))
  /-- Inside `Wait()`, blocked receiving from `doneCh`. -/
  | awaitDone
  /-- `Wait()` has returned. -/
  | returned
deriving Repr, DecidableEq

/-- The shared state of the pool (struct `ThreadPool`), the metric
counters (struct `Metrics`), and the control state of every thread.
`workers` counts the live worker goroutines (each worker is at the head
of its `for !p.workQueue.Empty()` loop whenever it is not inside the
bundled actions of a step), and `wgCount` is the `sync.WaitGroup`
counter. -/
structure PoolState where
  maxThreads : Nat
  submitQueue : List Nat
  waitingQueue : List Nat
  workQueue : List Nat
  threadCount : Nat
  tasksSubmitted : Nat
  tasksDone : Nat
  tasksQueued : Nat
  routinesSpawned : Nat
  routinesFinished : Nat
  waiting : Nat
  blocked : Bool
  wgCount : Nat
  doneClosed : Bool
  workers : Nat
  running : Bool
  coord : CoordPC
  main : MainPC
deriving Repr, DecidableEq

/-- `NewPool` (thread_pool.go lines 377-409): clip the requested thread
count to `[1, hardwareCPU]`, replacing an absent, zero or too-large
request by `hardwareCPU`. -/
def clipThreads (hardwareCPU : Nat) (numThreads : Option Nat) : Nat :=
  match numThreads with
  | some n => if n < 1 ∨ n > hardwareCPU then hardwareCPU else n
  | none => hardwareCPU

/-- The pool state right after `NewPool` returned and the coordinator
goroutine has entered its loop (`running = true`), with the producer
about to submit `pending`. -/
def mkPool (hardwareCPU : Nat) (numThreads : Option Nat)
    (pending : List (Option Nat)) : PoolState :=
  { maxThreads := clipThreads hardwareCPU numThreads
    submitQueue := [], waitingQueue := [], workQueue := []
    threadCount := 0
    tasksSubmitted := 0, tasksDone := 0, tasksQueued := 0
    routinesSpawned := 0, routinesFinished := 0
    waiting := 0, blocked := false
    wgCount := 0, doneClosed := false
    workers := 0, running := true
    coord := CoordPC.loopHead
    main := MainPC.submits pending }

/-- `SubmitTask` (thread_pool.go lines 411-426): drop a nil task, drop
any task while the pool is blocked, otherwise enqueue into the submit
queue and bump the submitted-tasks metric. -/
def submitTask (p : PoolState) (task : Option Nat) : PoolState :=
  match task with
  | none => p
  | some t =>
    if p.blocked then p
    else
      { p with
        submitQueue := p.submitQueue ++ [t]
        tasksSubmitted := p.tasksSubmitted + 1 }

/-- One interleaved step of the pool: the coordinator loop of
`processTasks`, the workers of `worker`, and the producer running
`SubmitTask`/`Wait`, each constructor covering one shared access of the
corresponding source line. -/
inductive Step : PoolState → PoolState → Prop where
  /-- `for running` observed `running == false`: fall through to
  `wg.Wait()` (line 430 / 472). -/
  | coordLoopExit (p : PoolState) :
      p.coord = CoordPC.loopHead → p.running = false →
      Step p { p with coord := CoordPC.wgWait }
  /-- Line 432: `!p.waitingQueue.Empty()` observed non-empty; enter the
  drain loop. -/
  | coordSeeWaiting (p : PoolState) :
      p.coord = CoordPC.loopHead → p.running = true → p.waitingQueue ≠ [] →
      Step p { p with coord := CoordPC.drainPop }
  /-- Line 432: the waiting queue observed empty; go to the dispatch
  branch (line 446). -/
  | coordSkipWaiting (p : PoolState) :
      p.coord = CoordPC.loopHead → p.running = true → p.waitingQueue = [] →
      Step p { p with coord := CoordPC.popSubmit }
  /-- Line 434: `waitingQueue.TryPop` succeeded. -/
  | coordDrainPopHit (p : PoolState) (t : Nat) (rest : List Nat) :
      p.coord = CoordPC.drainPop → p.waitingQueue = t :: rest →
      Step p { p with waitingQueue := rest, coord := CoordPC.drainPushWork t }
  /-- Line 434: `waitingQueue.TryPop` failed; leave the drain loop and
  `continue` to the top of the outer loop (line 442). -/
  | coordDrainPopMiss (p : PoolState) :
      p.coord = CoordPC.drainPop → p.waitingQueue = [] →
      Step p { p with coord := CoordPC.loopHead }
  /-- Line 435: `workQueue.Push(wTask)`. -/
  | coordDrainPushWork (p : PoolState) (t : Nat) :
      p.coord = CoordPC.drainPushWork t →
      Step p { p with workQueue := p.workQueue ++ [t], coord := CoordPC.drainPopSubmit }
  /-- Line 438: `submitQueue.TryPop` succeeded inside the drain loop. -/
  | coordDrainPopSubmitHit (p : PoolState) (t : Nat) (rest : List Nat) :
      p.coord = CoordPC.drainPopSubmit → p.submitQueue = t :: rest →
      Step p { p with submitQueue := rest, coord := CoordPC.drainPushWaiting t }
  /-- Line 438: `submitQueue.TryPop` failed inside the drain loop. -/
  | coordDrainPopSubmitMiss (p : PoolState) :
      p.coord = CoordPC.drainPopSubmit → p.submitQueue = [] →
      Step p { p with coord := CoordPC.drainPop }
  /-- Line 439: `waitingQueue.Push(sTask)`. -/
  | coordDrainPushWaiting (p : PoolState) (t : Nat) :
      p.coord = CoordPC.drainPushWaiting t →
      Step p { p with waitingQueue := p.waitingQueue ++ [t], coord := CoordPC.drainPop }
  /-- Line 446: `submitQueue.TryPop` succeeded in the dispatch branch. -/
  | coordPopSubmitHit (p : PoolState) (t : Nat) (rest : List Nat) :
      p.coord = CoordPC.popSubmit → p.submitQueue = t :: rest →
      Step p { p with submitQueue := rest, coord := CoordPC.checkThreads t }
  /-- Line 446: `submitQueue.TryPop` failed in the dispatch branch. -/
  | coordPopSubmitMiss (p : PoolState) :
      p.coord = CoordPC.popSubmit → p.submitQueue = [] →
      Step p { p with coord := CoordPC.checkDone }
  /-- Lines 447-456: `threadCount < maxThreads`, so push the task into
  the work queue, `wg.Add(1)`, spawn a worker goroutine, bump
  `threadCount` and the spawned-routines metric. -/
  | coordDispatch (p : PoolState) (t : Nat) :
      p.coord = CoordPC.checkThreads t → p.threadCount < p.maxThreads →
      Step p { p with
        workQueue := p.workQueue ++ [t]
        wgCount := p.wgCount + 1
        workers := p.workers + 1
        threadCount := p.threadCount + 1
        routinesSpawned := p.routinesSpawned + 1
        coord := CoordPC.loopHead }
  /-- Lines 457-463: all workers busy, so stage the task into the
  waiting queue and bump promoted-tasks metric. -/
  | coordStage (p : PoolState) (t : Nat) :
      p.coord = CoordPC.checkThreads t → ¬ p.threadCount < p.maxThreads →
      Step p { p with
        waitingQueue := p.waitingQueue ++ [t]
        tasksQueued := p.tasksQueued + 1
        coord := CoordPC.loopHead }
  /-- Lines 465-467: nothing to pop and `waiting != 0`: stop running. -/
  | coordObserveWaitFlag (p : PoolState) :
      p.coord = CoordPC.checkDone → p.waiting ≠ 0 →
      Step p { p with running := false, coord := CoordPC.loopHead }
  /-- Lines 465-467: nothing to pop and `waiting == 0`: keep polling. -/
  | coordKeepPolling (p : PoolState) :
      p.coord = CoordPC.checkDone → p.waiting = 0 →
      Step p { p with coord := CoordPC.loopHead }
  /-- Lines 472-475: `wg.Wait()` observed a zero counter, then
  `close(p.doneCh)`. -/
  | coordFinish (p : PoolState) :
      p.coord = CoordPC.wgWait → p.wgCount = 0 →
      Step p { p with doneClosed := true, coord := CoordPC.finished }
  /-- Worker lines 484-488: `workQueue.TryPop` succeeded; bump the
  done-tasks metric and run the task. -/
  | workerRun (p : PoolState) (t : Nat) (rest : List Nat) :
      0 < p.workers → p.workQueue = t :: rest →
      Step p { p with workQueue := rest, tasksDone := p.tasksDone + 1 }
  /-- Worker lines 484, 491-496: the work queue observed empty, so the
  worker retires: decrement `threadCount`, bump the finished-routines
  metric, `wg.Done()`, goroutine exit. -/
  | workerRetire (p : PoolState) :
      0 < p.workers → p.workQueue = [] →
      Step p { p with
        workers := p.workers - 1
        threadCount := p.threadCount - 1
        routinesFinished := p.routinesFinished + 1
        wgCount := p.wgCount - 1 }
  /-- The producer runs `SubmitTask` on the next pending task. -/
  | mainSubmit (p : PoolState) (t : Option Nat) (rest : List (Option Nat)) :
      p.main = MainPC.submits (t :: rest) →
      Step p { submitTask p t with main := MainPC.submits rest }
  /-- The producer calls `Wait()` (lines 499-509): set `blocked`, bump
  `waiting`, block on `doneCh`. -/
  | mainWait (p : PoolState) :
      p.main = MainPC.submits [] →
      Step p { p with blocked := true, waiting := p.waiting + 1, main := MainPC.awaitDone }
  /-- The receive from `doneCh` completes and `Wait()` returns. -/
  | mainUnblock (p : PoolState) :
      p.main = MainPC.awaitDone → p.doneClosed = true →
      Step p { p with main := MainPC.returned }

/-- Zero or more interleaved steps. -/
def StepStar : PoolState → PoolState → Prop := Relation.ReflTransGen Step

/-- The inner drain loop of `processTasks` (thread_pool.go lines
432-443) run to completion without interference, on the three queues
`(waitingQueue, submitQueue, workQueue)`: pop a task from the waiting
queue and push it into the work queue, and after each such move pop at
most one task (exactly one when it is non-empty) from the submit queue
into the waiting queue; stop when the waiting queue is empty. -/
def drainLoop {α : Type} : List α → List α → List α → List α × List α × List α
  | [], submitQ, workQ => ([], submitQ, workQ)
  | w :: ws, [], workQ => drainLoop ws [] (workQ ++ [w])
  | w :: ws, s :: ss, workQ => drainLoop (ws ++ [s]) ss (workQ ++ [w])
termination_by waitingQ submitQ _ => waitingQ.length + submitQ.length
decreasing_by
  all_goals simp_wf

/-- One stage of the bit smear: or in the value shifted right by `w`. -/
def smearStep (s w : Nat) : Nat := s ||| (s >>> w)

/-- The full five-stage smear of `ceilPow2` (shifts 1, 2, 4, 8, 16). -/
def smear (y : Nat) : Nat :=
  smearStep (smearStep (smearStep (smearStep (smearStep y 1) 2) 4) 8) 16

/-- The queue invariant of the specification, amended: well-formedness
(`count ≤ cap`, buffer length `cap`, valid `front`/`back` slots when
allocated) together with "cap is 0 before the first allocation and a
power of two afterwards". -/
def capInv (q : Queue Nat) : Prop :=
  q.wf ∧ (q.cap = 0 ∨ ∃ k, q.cap = 2 ^ k)

/-! Helper lemmas about the pool step relation. -/

/-- No step of the pool ever writes to `maxThreads`. -/
theorem submitTask_maxThreads (p : PoolState) (t : Option Nat) :
    (submitTask p t).maxThreads = p.maxThreads := by
  cases t with
  | none => rfl
  | some t0 => simp only [submitTask]; split <;> rfl

/-- `SubmitTask` never writes to the `blocked` flag. -/
theorem submitTask_blocked (p : PoolState) (t : Option Nat) :
    (submitTask p t).blocked = p.blocked := by
  cases t with
  | none => rfl
  | some t0 => simp only [submitTask]; split <;> rfl

/-- No step of the pool ever writes to `maxThreads`. -/
theorem step_maxThreads {p q : PoolState} (h : Step p q) :
    q.maxThreads = p.maxThreads := by
  cases h <;> first
    | rfl
    | exact submitTask_maxThreads _ _

/-- No step of the pool ever resets the `blocked` flag. -/
theorem step_blocked_mono {p q : PoolState} (h : Step p q)
    (hb : p.blocked = true) : q.blocked = true := by
  cases h <;> first
    | exact hb
    | rfl
    | exact (submitTask_blocked _ _).trans hb

/-- Across any number of steps `maxThreads` is unchanged and `blocked`
never falls back to `false`. -/
theorem stepStar_mono {p q : PoolState} (h : StepStar p q) :
    q.maxThreads = p.maxThreads ∧ (p.blocked = true → q.blocked = true) := by
  induction h with
  | refl => exact ⟨rfl, fun hb => hb⟩
  | tail _ hstep ih =>
    exact ⟨(step_maxThreads hstep).trans ih.1,
      fun hb => step_blocked_mono hstep (ih.2 hb)⟩

/-- The drain loop, on a non-empty waiting queue, empties both the
waiting queue and the submit queue and appends their contents, in FIFO
order, to the work queue. -/
theorem drainLoop_spec {α : Type} (w s work : List α) (h : w ≠ []) :
    drainLoop w s work = ([], [], work ++ w ++ s) := by
  match w, s with
  | x :: ws, [] =>
    rw [drainLoop]
    cases ws with
    | nil => rw [drainLoop]; simp
    | cons y ys =>
      rw [drainLoop_spec (y :: ys) [] (work ++ [x]) (by simp)]
      simp
  | x :: ws, s0 :: ss =>
    rw [drainLoop, drainLoop_spec (ws ++ [s0]) ss (work ++ [x]) (by simp)]
    simp
termination_by w.length + s.length

/-! Index bookkeeping for `List.getD`, used to reason about the ring
buffer through its abstraction `toSeq`. -/

theorem getD_append_left {T : Type} (l1 l2 : List T) (i : Nat) (d : T)
    (h : i < l1.length) : (l1 ++ l2).getD i d = l1.getD i d := by
  simp [List.getD_eq_getElem?_getD, List.getElem?_append, h]

theorem getD_append_right {T : Type} (l1 l2 : List T) (i : Nat) (d : T)
    (h : l1.length ≤ i) : (l1 ++ l2).getD i d = l2.getD (i - l1.length) d := by
  simp [List.getD_eq_getElem?_getD, List.getElem?_append_right h]

theorem getD_drop {T : Type} (l : List T) (n i : Nat) (d : T) :
    (l.drop n).getD i d = l.getD (n + i) d := by
  simp [List.getD_eq_getElem?_getD, List.getElem?_drop]

theorem getD_take {T : Type} (l : List T) (n i : Nat) (d : T) (h : i < n) :
    (l.take n).getD i d = l.getD i d := by
  simp [List.getD_eq_getElem?_getD, List.getElem?_take, h]

theorem getD_set_eq {T : Type} (l : List T) (m : Nat) (a d : T)
    (h : m < l.length) : (l.set m a).getD m d = a := by
  simp [List.getD_eq_getElem?_getD, List.getElem?_set_self, h]

theorem getD_set_ne {T : Type} (l : List T) (m n : Nat) (a d : T)
    (h : m ≠ n) : (l.set m a).getD n d = l.getD n d := by
  simp [List.getD_eq_getElem?_getD, List.getElem?_set_ne h]

theorem getD_replicate {T : Type} (n i : Nat) (a d : T) (h : i < n) :
    (List.replicate n a).getD i d = a := by
  simp [List.getD_eq_getElem?_getD, List.getElem?_replicate, h]

/-- Two logical offsets below the occupancy land on distinct physical
slots: `(front + i) % cap` and `(front + j) % cap` differ whenever
`i < j` and `j - i < cap`. -/
theorem mod_slot_ne {cap front i j : Nat} (h1 : i < j) (h2 : j - i < cap) :
    (front + i) % cap ≠ (front + j) % cap := by
  intro h
  have hmod : i ≡ j [MOD cap] :=
    Nat.ModEq.add_left_cancel' front (show front + i ≡ front + j [MOD cap] from h)
  have hdvd : cap ∣ j - i := (Nat.modEq_iff_dvd' h1.le).mp hmod
  have := Nat.le_of_dvd (by omega) hdvd
  omega

namespace Queue

variable {T : Type} [Inhabited T]

/-- `advance` is addition of one modulo the capacity, for a valid slot
index. -/
theorem advance_eq_mod (q : Queue T) (pos : Nat) (h : pos < q.cap) :
    q.advance pos = (pos + 1) % q.cap := by
  unfold advance
  split
  · rename_i he
    rw [← he, Nat.mod_self]
  · rename_i he
    exact (Nat.mod_eq_of_lt (by omega)).symm

/-- Copying into a fresh zero-filled buffer keeps the source and pads
with the fill value. -/
theorem goCopy_replicate (src : List T) (n : Nat) (h : src.length ≤ n) :
    goCopy (List.replicate n (default : T)) src
      = src ++ List.replicate (n - src.length) (default : T) := by
  unfold goCopy
  rw [List.length_replicate, List.take_of_length_le h, min_eq_left h,
    List.drop_replicate]

/-- Copying at an offset that splits an append leaves the prefix
alone. -/
theorem goCopyAt_append (l1 l2 src : List T) (off : Nat) (h : l1.length = off) :
    goCopyAt (l1 ++ l2) off src = l1 ++ goCopy l2 src := by
  unfold goCopyAt
  rw [List.take_left' h, List.drop_left' h]

/-- `grow` does nothing while there is room. -/
theorem grow_id (q : Queue T) (hroom : q.count < q.cap) : q.grow = q := by
  unfold grow
  rw [if_neg (by omega : ¬ q.cap = 0)]
  simp only [ge_iff_le]
  rw [if_neg (by omega : ¬ q.cap ≤ q.count)]

/-- `grow` on a never-allocated queue allocates the default capacity. -/
theorem grow_alloc (q : Queue T) (hcap : q.cap = 0) (hcnt : q.count = 0) :
    q.grow = { q with cap := queueMinCap, buf := List.replicate queueMinCap default } := by
  unfold grow
  rw [if_pos hcap]
  simp only [ge_iff_le]
  rw [if_neg (by simp [hcnt, queueMinCap])]

/-- `grow` on a full queue: the capacity doubles, the live range is
copied to the bottom of the new buffer as the two contiguous chunks
`buf[front:count]` and `buf[:back]`, and the indices are reset to
`front = 0`, `back = count`. -/
theorem grow_full (q : Queue T) (hw : q.wf) (hfull : q.count = q.cap)
    (hpos : 0 < q.cap) :
    q.grow = ⟨0, q.count, q.count, q.cap * 2,
      q.buf.drop q.front ++ (q.buf.take q.front ++ List.replicate q.cap default)⟩ := by
  obtain ⟨hlen, hcnt, hzero, hball⟩ := hw
  obtain ⟨hfr, hbk, hbeq⟩ := hball hpos
  have hback : q.back = q.front := by
    rw [hbeq, hfull, Nat.add_mod_right, Nat.mod_eq_of_lt hfr]
  unfold grow
  rw [if_neg (by omega : ¬ q.cap = 0)]
  simp only [ge_iff_le]
  rw [if_pos (by omega : q.cap ≤ q.count)]
  rw [if_neg (by omega : ¬ q.back > q.front)]
  have hseg : (q.buf.take q.count).drop q.front = q.buf.drop q.front := by
    rw [hfull, ← hlen, List.take_length]
  have hseglen : (q.buf.drop q.front).length = q.cap - q.front := by
    rw [List.length_drop, hlen]
  have hle : (q.buf.drop q.front).length ≤ q.cap * 2 := by omega
  have htklen : (q.buf.take q.back).length = q.front := by
    rw [List.length_take, hback, hlen]
    omega
  rw [hseg]
  rw [List.length_replicate]
  rw [goCopy_replicate _ _ hle]
  rw [hseglen, min_eq_left (by omega)]
  rw [goCopyAt_append _ _ _ _ hseglen]
  rw [goCopy_replicate _ _ (by rw [htklen]; omega)]
  rw [htklen]
  have h1 : q.cap * 2 - (q.cap - q.front) = q.cap + q.front := by omega
  have h2 : q.cap + q.front - q.front = q.cap := by omega
  rw [h1, h2, hback]

/-- The abstraction reads exactly `count` elements. -/
theorem toSeq_length (q : Queue T) : q.toSeq.length = q.count := by
  simp [toSeq]

/-- Growing a full queue does not change the logical contents. -/
theorem toSeq_grow_full (q : Queue T) (hw : q.wf) (hfull : q.count = q.cap)
    (hpos : 0 < q.cap) : q.grow.toSeq = q.toSeq := by
  obtain ⟨hlen, hcnt, hzero, hball⟩ := hw
  obtain ⟨hfr, hbk, hbeq⟩ := hball hpos
  rw [grow_full q ⟨hlen, hcnt, hzero, hball⟩ hfull hpos]
  unfold toSeq
  apply List.map_congr_left
  intro i hi
  rw [List.mem_range] at hi
  have hi2 : i < q.count := hi
  have hicap : i < q.cap := by omega
  simp only [Nat.zero_add]
  rw [Nat.mod_eq_of_lt (by omega : i < q.cap * 2)]
  by_cases hcase : i < q.cap - q.front
  · rw [getD_append_left _ _ _ _ (by rw [List.length_drop, hlen]; omega)]
    rw [getD_drop]
    rw [Nat.mod_eq_of_lt (by omega : q.front + i < q.cap)]
  · rw [getD_append_right _ _ _ _ (by rw [List.length_drop, hlen]; omega)]
    rw [List.length_drop, hlen]
    rw [getD_append_left _ _ _ _
      (by rw [List.length_take, hlen]; omega)]
    rw [getD_take _ _ _ _ (by omega)]
    have hmod : (q.front + i) % q.cap = i - (q.cap - q.front) := by
      rw [Nat.mod_eq_sub_mod (by omega : q.cap ≤ q.front + i)]
      rw [Nat.mod_eq_of_lt (by omega)]
      omega
    rw [hmod]

/-- `push` is the write step applied after `grow`. -/
theorem push_eq (q : Queue T) (item : T) :
    q.push item = pushWrite q.grow item := rfl

/-- The write step at the end of `Push`, on a well-formed queue with
room: it appends the item to the logical contents and preserves
well-formedness, the capacity and the buffer length. -/
theorem pushWrite_spec (q : Queue T) (item : T) (hw : q.wf)
    (hroom : q.count < q.cap) :
    (pushWrite q item).toSeq = q.toSeq ++ [item] ∧ (pushWrite q item).wf := by
  unfold pushWrite
  obtain ⟨hlen, hcnt, hzero, hball⟩ := hw
  have hpos : 0 < q.cap := by omega
  obtain ⟨hfr, hbk, hbeq⟩ := hball hpos
  constructor
  · unfold toSeq
    simp only
    rw [List.range_succ, List.map_append]
    congr 1
    · apply List.map_congr_left
      intro i hi
      rw [List.mem_range] at hi
      apply getD_set_ne
      rw [hbeq]
      exact (mod_slot_ne hi (by omega)).symm
    · simp only [List.map_cons, List.map_nil]
      congr 1
      rw [hbeq]
      exact getD_set_eq _ _ _ _ (by rw [hlen]; exact Nat.mod_lt _ hpos)
  · refine ⟨?_, ?_, ?_, fun _ => ⟨hfr, ?_, ?_⟩⟩
    · show (q.buf.set q.back item).length = q.cap
      rw [List.length_set]; exact hlen
    · show q.count + 1 ≤ q.cap
      omega
    · intro hc
      exact absurd (show q.cap = 0 from hc) (by omega)
    · show q.advance q.back < q.cap
      rw [advance_eq_mod q q.back hbk]
      exact Nat.mod_lt _ hpos
    · show q.advance q.back = (q.front + (q.count + 1)) % q.cap
      rw [advance_eq_mod q q.back hbk, hbeq]
      show ((q.front + q.count) % q.cap + 1) % q.cap = (q.front + (q.count + 1)) % q.cap
      calc ((q.front + q.count) % q.cap + 1) % q.cap
          = (q.front + q.count + 1) % q.cap :=
            (Nat.ModEq.add_right 1 (Nat.mod_modEq _ _))
        _ = (q.front + (q.count + 1)) % q.cap := by ring_nf

/-- `Push` on a well-formed queue: the item is appended to the logical
contents, well-formedness is preserved, and the capacity stays, is first
allocated at `queueMinCap`, or doubles, according to the occupancy. -/
theorem push_spec (q : Queue T) (item : T) (hw : q.wf) :
    (q.push item).toSeq = q.toSeq ++ [item] ∧
    (q.push item).wf ∧
    (q.push item).count = q.count + 1 ∧
    (q.push item).cap =
      (if q.cap = 0 then queueMinCap
       else if q.count = q.cap then q.cap * 2 else q.cap) := by
  obtain ⟨hlen, hcnt, hzero, hball⟩ := hw
  have hwq : q.wf := ⟨hlen, hcnt, hzero, hball⟩
  rw [push_eq]
  have hcap4 : (pushWrite q.grow item).cap = q.grow.cap := rfl
  have hcnt4 : (pushWrite q.grow item).count = q.grow.count + 1 := rfl
  by_cases hcap : q.cap = 0
  · obtain ⟨hc0, hf0, hb0, hbuf0⟩ := hzero hcap
    have hg : q.grow = { q with cap := queueMinCap, buf := List.replicate queueMinCap default } :=
      grow_alloc q hcap hc0
    have hwg : (q.grow).wf := by
      rw [hg]
      refine ⟨by simp, by simp [hc0, queueMinCap], by simp [queueMinCap], fun _ => ?_⟩
      simp [hf0, hb0, hc0, queueMinCap]
    have hgroom : (q.grow).count < (q.grow).cap := by
      rw [hg]; simp [hc0, queueMinCap]
    have hgts : (q.grow).toSeq = q.toSeq := by
      rw [hg]; unfold toSeq; simp [hc0]
    have h := pushWrite_spec q.grow item hwg hgroom
    refine ⟨h.1.trans (by rw [hgts]), h.2, ?_, ?_⟩
    · rw [hcnt4, hg]
    · rw [hcap4, hg]
      simp [hcap]
  · by_cases hfull : q.count = q.cap
    · have hpos : 0 < q.cap := by omega
      have hg := grow_full q hwq hfull hpos
      have hwg : (q.grow).wf := by
        rw [hg]
        obtain ⟨hfr, hbk2, hbeq2⟩ := hball hpos
        refine ⟨?_, by simp only; omega, by simp only; omega, fun _ => ?_⟩
        · simp only
          rw [List.length_append, List.length_append, List.length_drop,
            List.length_take, List.length_replicate, hlen]
          omega
        · refine ⟨by simp only; omega, by simp only; omega, ?_⟩
          simp only
          rw [Nat.zero_add, Nat.mod_eq_of_lt (by omega)]
      have hgroom : (q.grow).count < (q.grow).cap := by
        rw [hg]; simp only; omega
      have hgts : (q.grow).toSeq = q.toSeq := toSeq_grow_full q hwq hfull hpos
      have h := pushWrite_spec q.grow item hwg hgroom
      refine ⟨h.1.trans (by rw [hgts]), h.2, ?_, ?_⟩
      · rw [hcnt4, hg]
      · rw [hcap4, hg]
        simp [hcap, hfull]
    · have hroom : q.count < q.cap := by omega
      have hg : q.grow = q := grow_id q hroom
      have h := pushWrite_spec q item hwq hroom
      rw [hg]
      refine ⟨h.1, h.2, rfl, ?_⟩
      rw [show (q.pushWrite item).cap = q.cap from rfl]
      simp [hcap, hfull]

/-- `Pop` on a well-formed non-empty queue returns the logical head, and
the remaining state is well-formed, holds the logical tail and keeps the
capacity. -/
theorem pop_spec (q : Queue T) (hw : q.wf) (hne : 0 < q.count) :
      q.pop = some (q.buf.getD q.front default, q.popRest) ∧
      q.toSeq = q.buf.getD q.front default :: q.popRest.toSeq ∧
      q.popRest.wf ∧ q.popRest.cap = q.cap ∧ q.popRest.count = q.count - 1 := by
  obtain ⟨hlen, hcnt, hzero, hball⟩ := hw
  have hpos : 0 < q.cap := by
    rcases Nat.eq_zero_or_pos q.cap with h | h
    · obtain ⟨hc0, _, _, _⟩ := hzero h
      omega
    · exact h
  obtain ⟨hfr, hbk, hbeq⟩ := hball hpos
  unfold popRest
  refine ⟨?_, ?_, ?_, rfl, rfl⟩
  · unfold pop
    rw [if_neg (by omega : ¬ q.count = 0)]
  · unfold toSeq
    simp only
    obtain ⟨c1, hc1⟩ : ∃ c1, q.count = c1 + 1 := ⟨q.count - 1, by omega⟩
    rw [hc1]
    rw [List.range_succ_eq_map]
    simp only [List.map_cons, List.map_map, Nat.add_sub_cancel]
    congr 1
    · rw [Nat.add_zero, Nat.mod_eq_of_lt hfr]
    · apply List.map_congr_left
      intro i hi
      rw [List.mem_range] at hi
      simp only [Function.comp]
      rw [advance_eq_mod q q.front hfr]
      have hidx : ((q.front + 1) % q.cap + i) % q.cap = (q.front + Nat.succ i) % q.cap := by
        calc ((q.front + 1) % q.cap + i) % q.cap
            = (q.front + 1 + i) % q.cap := (Nat.ModEq.add_right i (Nat.mod_modEq _ _))
          _ = (q.front + Nat.succ i) % q.cap := by congr 1; omega
      rw [hidx]
      have hne2 : q.front ≠ (q.front + Nat.succ i) % q.cap := by
        have h0 : (q.front + 0) % q.cap ≠ (q.front + Nat.succ i) % q.cap :=
          mod_slot_ne (by omega) (by omega)
        rwa [Nat.add_zero, Nat.mod_eq_of_lt hfr] at h0
      exact (getD_set_ne _ _ _ _ _ hne2).symm
  · refine ⟨?_, ?_, ?_, fun _ => ⟨?_, hbk, ?_⟩⟩
    · show (q.buf.set q.front default).length = q.cap
      rw [List.length_set]; exact hlen
    · show q.count - 1 ≤ q.cap
      omega
    · intro hc
      exact absurd (show q.cap = 0 from hc) (by omega)
    · show q.advance q.front < q.cap
      rw [advance_eq_mod q q.front hfr]
      exact Nat.mod_lt _ hpos
    · show q.back = (q.advance q.front + (q.count - 1)) % q.cap
      rw [advance_eq_mod q q.front hfr, hbeq]
      calc (q.front + q.count) % q.cap
          = (q.front + 1 + (q.count - 1)) % q.cap := by
            congr 1
            omega
        _ = ((q.front + 1) % q.cap + (q.count - 1)) % q.cap :=
            ((Nat.ModEq.add_right (q.count - 1) (Nat.mod_modEq _ _))).symm

/-- `Clear` preserves well-formedness, empties the queue and keeps the
capacity and the buffer. -/
theorem clear_spec (q : Queue T) (hw : q.wf) :
    q.Clear.wf ∧ q.Clear.cap = q.cap ∧ q.Clear.count = 0 ∧ q.Clear.toSeq = [] := by
  obtain ⟨hlen, hcnt, hzero, hball⟩ := hw
  unfold Clear
  by_cases hc : q.count = 0
  · rw [if_pos hc]
    exact ⟨⟨hlen, hcnt, hzero, hball⟩, rfl, hc, by simp [toSeq, hc]⟩
  · rw [if_neg hc]
    have hpos : 0 < q.cap := by
      rcases Nat.eq_zero_or_pos q.cap with h | h
      · obtain ⟨hc0, _, _, _⟩ := hzero h
        omega
      · exact h
    refine ⟨⟨hlen, Nat.zero_le _, ?_, fun _ => ⟨hpos, hpos, by simp⟩⟩, rfl, rfl, by simp [toSeq]⟩
    intro h0
    exact absurd (show q.cap = 0 from h0) (by omega)

/-- `NewQueue` establishes well-formedness, zero occupancy and an empty
logical content. -/
theorem newQueue_wf (d : T) (size? : Option Nat) :
    (NewQueue d size?).wf ∧ (NewQueue d size?).count = 0 ∧
      (NewQueue d size?).toSeq = [] := by
  cases size? with
  | none =>
    exact ⟨⟨rfl, Nat.le_refl _, fun _ => ⟨rfl, rfl, rfl, rfl⟩,
      fun h => absurd h (by simp [NewQueue])⟩, rfl, rfl⟩
  | some s =>
    refine ⟨⟨?_, Nat.zero_le _, fun h => ⟨rfl, rfl, rfl, ?_⟩,
      fun h => ⟨h, h, (Nat.zero_mod _).symm⟩⟩, rfl, rfl⟩
    · show (List.replicate ((NewQueue d (some s)).cap) d).length = (NewQueue d (some s)).cap
      rw [List.length_replicate]
    · show List.replicate ((NewQueue d (some s)).cap) d = ([] : List T)
      rw [show (NewQueue d (some s)).cap = 0 from h, List.replicate_zero]

/-- Pushing a list of items appends it to the logical contents and
preserves well-formedness. -/
theorem pushAll_spec (q : Queue T) (l : List T) (hw : q.wf) :
    (q.pushAll l).toSeq = q.toSeq ++ l ∧ (q.pushAll l).wf ∧
      (q.pushAll l).count = q.count + l.length := by
  induction l generalizing q with
  | nil => simp [pushAll, hw]
  | cons x xs ih =>
    obtain ⟨h1, h2, h3, _⟩ := push_spec q x hw
    have hstep : q.pushAll (x :: xs) = (q.push x).pushAll xs := by
      simp [pushAll]
    obtain ⟨ih1, ih2, ih3⟩ := ih (q.push x) h2
    rw [hstep]
    refine ⟨?_, ih2, ?_⟩
    · rw [ih1, h1]
      simp
    · rw [ih3, h3]
      simp
      omega

/-- `Front` returns exactly the head of the logical contents (and
`none`, the fatal violation, exactly on an empty queue). -/
theorem Front_eq_head (q : Queue T) (hw : q.wf) : q.Front = q.toSeq.head? := by
  obtain ⟨hlen, hcnt, hzero, hball⟩ := hw
  unfold Front
  by_cases hc : q.count = 0
  · rw [if_pos hc]
    simp [toSeq, hc]
  · rw [if_neg hc]
    have hpos : 0 < q.cap := by
      rcases Nat.eq_zero_or_pos q.cap with h | h
      · obtain ⟨hc0, _, _, _⟩ := hzero h
        omega
      · exact h
    obtain ⟨hfr, _, _⟩ := hball hpos
    obtain ⟨c1, hc1⟩ : ∃ c1, q.count = c1 + 1 := ⟨q.count - 1, by omega⟩
    unfold toSeq
    rw [hc1, List.range_succ_eq_map]
    simp only [List.map_cons, List.head?_cons]
    rw [Nat.add_zero, Nat.mod_eq_of_lt hfr]

/-- The last element of the logical contents sits at the physical slot
`(front + count - 1) % cap`. -/
theorem toSeq_getLast (q : Queue T) (hne : 0 < q.count) :
    q.toSeq.getLast? = some (q.buf.getD ((q.front + (q.count - 1)) % q.cap) default) := by
  unfold toSeq
  obtain ⟨c1, hc1⟩ : ∃ c1, q.count = c1 + 1 := ⟨q.count - 1, by omega⟩
  rw [hc1, List.range_succ, List.map_append]
  simp

/-- `Back` on a well-formed non-empty queue: when `back ≠ 0`, or when
the queue is full, it returns the newest element; when `back = 0` it
reads the raw slot `count - 1`. -/
theorem Back_spec (q : Queue T) (hw : q.wf) (hne : 0 < q.count) :
    (q.back ≠ 0 → q.Back = q.toSeq.getLast?) ∧
    (q.back = 0 → q.Back = some (q.buf.getD (q.count - 1) default)) ∧
    (q.back = 0 → q.count = q.cap → q.Back = q.toSeq.getLast?) := by
  obtain ⟨hlen, hcnt, hzero, hball⟩ := hw
  have hpos : 0 < q.cap := by
    rcases Nat.eq_zero_or_pos q.cap with h | h
    · obtain ⟨hc0, _, _, _⟩ := hzero h
      omega
    · exact h
  obtain ⟨hfr, hbk, hbeq⟩ := hball hpos
  refine ⟨?_, ?_, ?_⟩
  · intro hb0
    unfold Back
    rw [if_neg (by omega), if_neg hb0]
    rw [toSeq_getLast q hne]
    congr 2
    have hdm := Nat.div_add_mod (q.front + q.count) q.cap
    have hlt : (q.front + q.count) % q.cap < q.cap := Nat.mod_lt _ hpos
    have hmod : (q.front + (q.count - 1)) % q.cap = (q.front + q.count) % q.cap - 1 := by
      have hx : q.front + (q.count - 1) =
          q.cap * ((q.front + q.count) / q.cap) + ((q.front + q.count) % q.cap - 1) := by
        omega
      rw [hx, Nat.mul_add_mod]
      exact Nat.mod_eq_of_lt (by omega)
    rw [hmod, ← hbeq]
  · intro hb0
    unfold Back
    rw [if_neg (by omega), if_pos hb0]
  · intro hb0 hfull
    unfold Back
    rw [if_neg (by omega), if_pos hb0]
    rw [toSeq_getLast q hne]
    have hf0 : q.front = 0 := by
      rw [hb0, hfull] at hbeq
      rw [Nat.add_mod_right, Nat.mod_eq_of_lt hfr] at hbeq
      omega
    congr 2
    rw [hf0, Nat.zero_add, hfull]
    exact (Nat.mod_eq_of_lt (by omega)).symm

end Queue

/-! The bit-smearing analysis of `ceilPow2` and the characterization of
`isPowerOf2`. -/

/-- `ceilPow2` is decrement-smear-increment in `uint32` arithmetic. -/
theorem ceilPow2_eq_smear (x : Nat) :
    ceilPow2 x = (smear ((x + (2 ^ 32 - 1)) % 2 ^ 32) + 1) % 2 ^ 32 := rfl

theorem shiftRight_le (m k : Nat) : m >>> k ≤ m := by
  rw [Nat.shiftRight_eq_div_pow]
  exact Nat.div_le_self m (2 ^ k)

theorem smearStep_lt {n s : Nat} (h : s < 2 ^ n) (w : Nat) : smearStep s w < 2 ^ n :=
  Nat.or_lt_two_pow h (lt_of_le_of_lt (shiftRight_le s w) h)

theorem smear_lt {n y : Nat} (h : y < 2 ^ n) : smear y < 2 ^ n :=
  smearStep_lt (smearStep_lt (smearStep_lt (smearStep_lt (smearStep_lt h 1) 2) 4) 8) 16

/-- If a stage already covers every bit of `y` at distance below `w`,
the next stage covers every distance below `2 * w`. -/
theorem smearStep_cover {y s w : Nat}
    (hs : ∀ i j, j < w → y.testBit (i + j) = true → s.testBit i = true) :
    ∀ i j, j < 2 * w → y.testBit (i + j) = true → (smearStep s w).testBit i = true := by
  intro i j hj hbit
  unfold smearStep
  rw [Nat.testBit_or]
  by_cases hjw : j < w
  · rw [hs i j hjw hbit]
    rfl
  · have hbit2 : y.testBit (w + i + (j - w)) = true := by
      rw [show w + i + (j - w) = i + j by omega]
      exact hbit
    rw [Nat.testBit_shiftRight, hs (w + i) (j - w) (by omega) hbit2, Bool.or_true]

/-- The full smear covers every bit of `y` at distance below 32. -/
theorem smear_cover (y : Nat) :
    ∀ i j, j < 32 → y.testBit (i + j) = true → (smear y).testBit i = true := by
  have h0 : ∀ i j, j < 1 → y.testBit (i + j) = true → y.testBit i = true := by
    intro i j hj hbit
    have : j = 0 := by omega
    rwa [this, Nat.add_zero] at hbit
  exact smearStep_cover (smearStep_cover (smearStep_cover
    (smearStep_cover (smearStep_cover h0))))

/-- A positive number has its top bit set at position `size - 1`. -/
theorem testBit_msb (y : Nat) (hy : 0 < y) : y.testBit (y.size - 1) = true := by
  have hsz : 0 < y.size := Nat.size_pos.mpr hy
  have hle : 2 ^ (y.size - 1) ≤ y := Nat.lt_size.mp (by omega)
  have hlt : y < 2 ^ y.size := Nat.lt_size_self y
  rw [Nat.testBit_to_div_mod]
  have hdiv : y / 2 ^ (y.size - 1) = 1 := by
    have h1 : 1 ≤ y / 2 ^ (y.size - 1) :=
      (Nat.le_div_iff_mul_le (Nat.pos_pow_of_pos _ (by norm_num))).mpr (by omega)
    have h2 : y / 2 ^ (y.size - 1) < 2 := by
      apply Nat.div_lt_of_lt_mul
      calc y < 2 ^ y.size := hlt
        _ = 2 ^ (y.size - 1) * 2 := by
          rw [← Nat.pow_succ]
          congr 1
          omega
    omega
  rw [hdiv]
  rfl

/-- The smear of any `uint32` value is the all-ones mask up to its
bit-size. -/
theorem smear_eq (y : Nat) (hy : y < 2 ^ 32) : smear y = 2 ^ y.size - 1 := by
  have hsz : y.size ≤ 32 := Nat.size_le.mpr hy
  apply Nat.eq_of_testBit_eq
  intro i
  rw [Nat.testBit_two_pow_sub_one]
  by_cases hi : i < y.size
  · simp only [hi, decide_True]
    have hy0 : 0 < y := Nat.size_pos.mp (by omega)
    exact smear_cover y i (y.size - 1 - i) (by omega)
      (by rw [show i + (y.size - 1 - i) = y.size - 1 by omega]; exact testBit_msb y hy0)
  · simp only [hi, decide_False]
    apply Nat.testBit_eq_false_of_lt
    calc smear y < 2 ^ y.size := smear_lt (Nat.lt_size_self y)
      _ ≤ 2 ^ i := Nat.pow_le_pow_right (by norm_num) (by omega)

/-- In the documented range `1 ≤ x ≤ 2^31`, `ceilPow2` computes
`2 ^ size (x - 1)`. -/
theorem ceilPow2_in_range (x : Nat) (h1 : 1 ≤ x) (h2 : x ≤ 2 ^ 31) :
    ceilPow2 x = 2 ^ (x - 1).size := by
  have hx1 : (x + (2 ^ 32 - 1)) % 2 ^ 32 = x - 1 := by
    rw [show x + (2 ^ 32 - 1) = (x - 1) + 2 ^ 32 by omega, Nat.add_mod_right]
    exact Nat.mod_eq_of_lt (by omega)
  rw [ceilPow2_eq_smear, hx1, smear_eq (x - 1) (by omega)]
  have hsize : (x - 1).size ≤ 31 := Nat.size_le.mpr (by omega)
  have hp : 0 < 2 ^ (x - 1).size := Nat.pos_pow_of_pos _ (by norm_num)
  rw [show 2 ^ (x - 1).size - 1 + 1 = 2 ^ (x - 1).size by omega]
  apply Nat.mod_eq_of_lt
  calc 2 ^ (x - 1).size ≤ 2 ^ 31 := Nat.pow_le_pow_right (by norm_num) hsize
    _ < 2 ^ 32 := by norm_num

/-- Above `2^31` (but within `uint32`), the increment at the end of
`ceilPow2` wraps and the result is 0. -/
theorem ceilPow2_wrap (x : Nat) (h1 : 2 ^ 31 < x) (h2 : x < 2 ^ 32) :
    ceilPow2 x = 0 := by
  have hx1 : (x + (2 ^ 32 - 1)) % 2 ^ 32 = x - 1 := by
    rw [show x + (2 ^ 32 - 1) = (x - 1) + 2 ^ 32 by omega, Nat.add_mod_right]
    exact Nat.mod_eq_of_lt (by omega)
  have hsz : (x - 1).size = 32 := by
    have hle : (x - 1).size ≤ 32 := Nat.size_le.mpr (by omega)
    have hgt : 31 < (x - 1).size := Nat.lt_size.mpr (by omega)
    omega
  rw [ceilPow2_eq_smear, hx1, smear_eq (x - 1) (by omega), hsz]
  rw [show 2 ^ 32 - 1 + 1 = 2 ^ 32 by norm_num, Nat.mod_self]

/-- `x & (x-1)` distributes over doubling: for positive `a`,
`(2a) & (2a - 1) = 2 * (a & (a-1))`. -/
theorem land_even_pred (a : Nat) (ha : 0 < a) :
    (2 * a) &&& (2 * a - 1) = 2 * (a &&& (a - 1)) := by
  have hdiv1 : 2 * a / 2 = a := Nat.mul_div_cancel_left a (by norm_num)
  have hdiv2 : (2 * a - 1) / 2 = a - 1 := by
    rw [show 2 * a - 1 = 2 * (a - 1) + 1 by omega, Nat.mul_add_div (by norm_num)]
    norm_num
  have hdiv3 : 2 * (a &&& (a - 1)) / 2 = a &&& (a - 1) :=
    Nat.mul_div_cancel_left _ (by norm_num)
  apply Nat.eq_of_testBit_eq
  intro i
  cases i with
  | zero =>
    simp [Nat.testBit_and, Nat.testBit_zero, Nat.mul_mod_right]
  | succ i =>
    rw [Nat.testBit_and]
    simp [Nat.testBit_succ, hdiv1, hdiv2, hdiv3, Nat.testBit_and]

/-- An odd number above one shares its `a`-bits with its predecessor:
`(2a+1) & (2a) = 2a`. -/
theorem land_odd_pred (a : Nat) : (2 * a + 1) &&& (2 * a) = 2 * a := by
  have hdiv1 : (2 * a + 1) / 2 = a := by
    rw [Nat.mul_add_div (by norm_num)]
    norm_num
  have hdiv2 : 2 * a / 2 = a := Nat.mul_div_cancel_left a (by norm_num)
  apply Nat.eq_of_testBit_eq
  intro i
  cases i with
  | zero =>
    simp [Nat.testBit_and, Nat.testBit_zero, Nat.mul_mod_right]
  | succ i =>
    rw [Nat.testBit_and]
    simp [Nat.testBit_succ, hdiv1, hdiv2]

/-- The `x != 0 && x & (x-1) == 0` test accepts exactly the powers of
two. -/
theorem isPowerOf2_iff (x : Nat) : isPowerOf2 x = true ↔ ∃ k, x = 2 ^ k := by
  constructor
  · intro h
    induction x using Nat.strong_induction_on with
    | _ x ih =>
      unfold isPowerOf2 at h
      by_cases hx0 : x = 0
      · rw [if_pos hx0] at h
        exact absurd h (by simp)
      · rw [if_neg hx0] at h
        have hand : x &&& (x - 1) = 0 := by
          simpa using h
        rcases Nat.even_or_odd x with he | ho
        · obtain ⟨a, ha⟩ := he
          have ha2 : x = 2 * a := by omega
          have hapos : 0 < a := by omega
          have hand2 : a &&& (a - 1) = 0 := by
            rw [ha2, land_even_pred a hapos] at hand
            omega
          have hih := ih a (by omega)
          have hpa : isPowerOf2 a = true := by
            unfold isPowerOf2
            rw [if_neg (by omega)]
            simp [hand2]
          obtain ⟨k, hk⟩ := hih hpa
          exact ⟨k + 1, by rw [ha2, hk, Nat.pow_succ]; ring⟩
        · obtain ⟨a, ha⟩ := ho
          by_cases ha0 : a = 0
          · exact ⟨0, by omega⟩
          · exfalso
            rw [ha, show 2 * a + 1 - 1 = 2 * a by omega, land_odd_pred] at hand
            omega
  · rintro ⟨k, rfl⟩
    unfold isPowerOf2
    rw [if_neg (Nat.pos_iff_ne_zero.mp (Nat.pos_pow_of_pos k (by norm_num)))]
    have hand : (2 ^ k) &&& (2 ^ k - 1) = 0 := by
      apply Nat.eq_of_testBit_eq
      intro i
      rw [Nat.testBit_and, Nat.testBit_two_pow, Nat.testBit_two_pow_sub_one,
        Nat.zero_testBit]
      by_cases hki : k = i
      · simp [hki]
      · simp [hki]
    simp [hand]

/-! The claim theorems. -/

/-- C10: for every `uint32` input `1 ≤ x ≤ 2^31`, `ceilPow2 x` is the
least power of two that is at least `x`, and `isPowerOf2 x` holds exactly
when `x` is a power of two (`isPowerOf2 0` is `false`); hence
`NewQueue(size)` allocates capacity equal to the least power of two at
least `size` for sizes in that range, while `ceilPow2 0` and `ceilPow2 x`
for `x > 2^31` wrap modulo `2^32` to 0, giving a zero-capacity buffer at
construction. -/
theorem claim_C10_ceilPow2_least_power (x : Nat) :
    isPowerOf2 0 = false ∧
    ceilPow2 0 = 0 ∧
    (isPowerOf2 x = true ↔ ∃ k, x = 2 ^ k) ∧
    (1 ≤ x → x ≤ 2 ^ 31 →
      isPowerOf2 (ceilPow2 x) = true ∧
      x ≤ ceilPow2 x ∧
      (∀ k, x ≤ 2 ^ k → ceilPow2 x ≤ 2 ^ k) ∧
      (NewQueue (0 : Nat) (some x)).cap = ceilPow2 x ∧
      (NewQueue (0 : Nat) (some x)).buf.length = ceilPow2 x) ∧
    (2 ^ 31 < x → x < 2 ^ 32 →
      ceilPow2 x = 0 ∧ (NewQueue (0 : Nat) (some x)).cap = 0 ∧
      (NewQueue (0 : Nat) (some x)).buf = []) ∧
    ((NewQueue (0 : Nat) (some 0)).cap = 0 ∧ (NewQueue (0 : Nat) (some 0)).buf = []) := by
  refine ⟨rfl, by decide, isPowerOf2_iff x, ?_, ?_, by decide, by decide⟩
  · intro h1 h2
    have heq := ceilPow2_in_range x h1 h2
    have hself := Nat.lt_size_self (x - 1)
    have hle : x ≤ ceilPow2 x := by
      rw [heq]; omega
    have hmin : ∀ k, x ≤ 2 ^ k → ceilPow2 x ≤ 2 ^ k := by
      intro k hk
      rw [heq]
      exact Nat.pow_le_pow_right (by norm_num) (Nat.size_le.mpr (by omega))
    have hcap : (NewQueue (0 : Nat) (some x)).cap = ceilPow2 x := by
      show (if isPowerOf2 x then x else ceilPow2 x) = ceilPow2 x
      by_cases hp : isPowerOf2 x = true
      · rw [if_pos hp]
        obtain ⟨k, hk⟩ := (isPowerOf2_iff x).mp hp
        have := hmin k (by omega)
        omega
      · rw [if_neg hp]
    refine ⟨(isPowerOf2_iff _).mpr ⟨(x - 1).size, heq⟩, hle, hmin, hcap, ?_⟩
    show (List.replicate (if isPowerOf2 x then x else ceilPow2 x) (0 : Nat)).length = _
    rw [List.length_replicate]
    exact hcap
  · intro h1 h2
    have hc0 := ceilPow2_wrap x h1 h2
    have hnp : isPowerOf2 x = false := by
      rcases hb : isPowerOf2 x with _ | _
      · rfl
      · obtain ⟨k, hk⟩ := (isPowerOf2_iff x).mp hb
        have h32 : 32 ≤ k := by
          by_contra hlt
          have : 2 ^ k ≤ 2 ^ 31 := Nat.pow_le_pow_right (by norm_num) (by omega)
          omega
        have : 2 ^ 32 ≤ 2 ^ k := Nat.pow_le_pow_right (by norm_num) h32
        omega
    have hcap : (NewQueue (0 : Nat) (some x)).cap = 0 := by
      show (if isPowerOf2 x then x else ceilPow2 x) = 0
      rw [hnp]
      simpa using hc0
    refine ⟨hc0, hcap, ?_⟩
    show List.replicate (if isPowerOf2 x then x else ceilPow2 x) (0 : Nat) = []
    rw [hnp]
    simp [hc0]

/-- C10 witness: the theorem evaluated at the in-range input 5 and the
wrapping input `2^31 + 7`. -/
theorem claim_C10_witness :
    isPowerOf2 (ceilPow2 5) = true ∧ 5 ≤ ceilPow2 5 ∧ ceilPow2 5 ≤ 2 ^ 3 ∧
    (NewQueue (0 : Nat) (some 5)).cap = ceilPow2 5 ∧ ceilPow2 (2 ^ 31 + 7) = 0 := by
  have h5 := (claim_C10_ceilPow2_least_power 5).2.2.2.1 (by norm_num) (by norm_num)
  have hbig := ((claim_C10_ceilPow2_least_power (2 ^ 31 + 7)).2.2.2.2.1
    (by norm_num) (by norm_num)).1
  exact ⟨h5.1, h5.2.1, h5.2.2.1 3 (by norm_num), h5.2.2.2.1, hbig⟩

/-- C9: a nil queue receiver answers `Cap() = 0`, `Len() = 0`,
`Left() = 0`, ignores `Push`, and reports `Empty() = false`, so it
simultaneously claims zero length and non-emptiness. -/
theorem claim_C9_nil_queue (item : Nat) :
    Cap (none : Option (Queue Nat)) = 0 ∧
    Len (none : Option (Queue Nat)) = 0 ∧
    Left (none : Option (Queue Nat)) = 0 ∧
    Push (none : Option (Queue Nat)) item = none ∧
    Empty (none : Option (Queue Nat)) = false ∧
    (Len (none : Option (Queue Nat)) = 0 ∧
      Empty (none : Option (Queue Nat)) ≠ true) :=
  ⟨rfl, rfl, rfl, rfl, rfl, rfl, by simp [Empty]⟩

/-- C4: the constructor clips the requested parallelism to
`[1, hardwareCPU]`: absent, zero or too-large requests become
`hardwareCPU`, in-range requests are taken as given, and no step of the
pool ever changes `maxThreads` afterwards. -/
theorem claim_C4_clipping (hardwareCPU n : Nat) (arg : Option Nat)
    (pending : List (Option Nat)) :
    (n < 1 ∨ n > hardwareCPU → clipThreads hardwareCPU (some n) = hardwareCPU) ∧
    (1 ≤ n → n ≤ hardwareCPU → clipThreads hardwareCPU (some n) = n) ∧
    clipThreads hardwareCPU none = hardwareCPU ∧
    (mkPool hardwareCPU arg pending).maxThreads = clipThreads hardwareCPU arg ∧
    (∀ p q : PoolState, Step p q → q.maxThreads = p.maxThreads) ∧
    (∀ p q : PoolState, StepStar p q → q.maxThreads = p.maxThreads) := by
  refine ⟨?_, ?_, rfl, rfl, fun p q h => step_maxThreads h,
    fun p q h => (stepStar_mono h).1⟩
  · intro h
    show (if n < 1 ∨ n > hardwareCPU then hardwareCPU else n) = hardwareCPU
    rw [if_pos h]
  · intro h1 h2
    show (if n < 1 ∨ n > hardwareCPU then hardwareCPU else n) = n
    rw [if_neg (by omega)]

/-- C4 witness: clipping evaluated at hardware concurrency 8 with
requests 256, 0 and 5. -/
theorem claim_C4_witness :
    clipThreads 8 (some 256) = 8 ∧ clipThreads 8 (some 0) = 8 ∧
    clipThreads 8 (some 5) = 5 ∧ clipThreads 8 none = 8 := by
  have h256 := claim_C4_clipping 8 256 none []
  have h0 := claim_C4_clipping 8 0 none []
  have h5 := claim_C4_clipping 8 5 none []
  exact ⟨h256.1 (by omega), h0.1 (by omega), h5.2.1 (by omega) (by omega),
    h5.2.2.1⟩

/-- C8: `SubmitTask` is a caller-visible no-op on a nil task and on a
blocked pool (also for arbitrarily many such calls, and after any number
of steps once `Wait()` has set the blocked flag, since no step clears
it), and otherwise appends the task to the submit queue and bumps the
submitted-tasks metric by exactly one. -/
theorem claim_C8_submit_rejection (p : PoolState) (t : Nat) (k : Nat)
    (q q1 : PoolState) :
    submitTask p none = p ∧
    (fun s => submitTask s none)^[k] p = p ∧
    (p.blocked = true → submitTask p (some t) = p) ∧
    (p.blocked = false →
      submitTask p (some t) =
        { p with submitQueue := p.submitQueue ++ [t]
                 tasksSubmitted := p.tasksSubmitted + 1 }) ∧
    (q.blocked = true → StepStar q q1 → submitTask q1 (some t) = q1) := by
  refine ⟨rfl, ?_, ?_, ?_, ?_⟩
  · induction k with
    | zero => rfl
    | succ k ih => rw [Function.iterate_succ_apply, show submitTask p none = p from rfl, ih]
  · intro hb
    simp [submitTask, hb]
  · intro hb
    simp [submitTask, hb]
  · intro hb hs
    have hb1 : q1.blocked = true := (stepStar_mono hs).2 hb
    simp [submitTask, hb1]

/-- C8 witness: the theorem evaluated on a freshly constructed pool (not
blocked) and on the same pool with the blocked flag set. -/
theorem claim_C8_witness :
    submitTask (mkPool 4 none []) none = mkPool 4 none [] ∧
    submitTask { mkPool 4 none [] with blocked := true } (some 7) =
      { mkPool 4 none [] with blocked := true } ∧
    (submitTask (mkPool 4 none []) (some 7)).tasksSubmitted = 1 := by
  have h1 := claim_C8_submit_rejection (mkPool 4 none []) 7 0 (mkPool 4 none [])
    (mkPool 4 none [])
  have h2 := claim_C8_submit_rejection { mkPool 4 none [] with blocked := true } 7 0
    (mkPool 4 none []) (mkPool 4 none [])
  refine ⟨h1.1, h2.2.2.1 rfl, ?_⟩
  rw [h1.2.2.2.1 rfl]
  rfl

/-- C3: the coordinator drain phase, entered whenever `waitingQueue` is
observed non-empty, moves one waiting task to the work queue per
iteration, moves at most one (exactly one when available) submitted task
to the waiting queue per iteration, exits only with an empty waiting
queue, and delivers the tasks into the work queue in the FIFO order in
which they were held. -/
theorem claim_C3_drain_phase (w s work : List Nat) (x s0 : Nat)
    (ws ss : List Nat) :
    (w ≠ [] → drainLoop w s work = ([], [], work ++ w ++ s)) ∧
    drainLoop (x :: ws) (s0 :: ss) work = drainLoop (ws ++ [s0]) ss (work ++ [x]) ∧
    drainLoop (x :: ws) [] work = drainLoop ws [] (work ++ [x]) ∧
    drainLoop ([] : List Nat) s work = ([], s, work) := by
  refine ⟨fun h => drainLoop_spec w s work h, ?_, ?_, ?_⟩ <;> rw [drainLoop]

/-- C3 witness: the drain phase run on waiting queue `[1, 2]`, submit
queue `[3, 4, 5]` and an empty work queue. -/
theorem claim_C3_witness :
    drainLoop [1, 2] [3, 4, 5] ([] : List Nat) = ([], [], [1, 2, 3, 4, 5]) := by
  have h := (claim_C3_drain_phase [1, 2] [3, 4, 5] [] 0 0 [] []).1 (by simp)
  simpa using h

/-- Pushing while enough room remains never changes the capacity. -/
theorem pushAll_cap (q : Queue Nat) (l : List Nat) (hw : q.wf)
    (h : q.count + l.length ≤ q.cap) : (q.pushAll l).cap = q.cap := by
  induction l generalizing q with
  | nil => simp [Queue.pushAll]
  | cons x xs ih =>
    obtain ⟨h1, h2, h3, h4⟩ := Queue.push_spec q x hw
    have hcap : (q.push x).cap = q.cap := by
      rw [h4, if_neg (by simp at h; omega), if_neg (by simp at h; omega)]
    have hstep : q.pushAll (x :: xs) = (q.push x).pushAll xs := by
      simp [Queue.pushAll]
    rw [hstep, ih (q.push x) h2 (by rw [h3, hcap]; simp at h ⊢; omega), hcap]

/-- C2: pushing into a full well-formed queue doubles the capacity,
copies the live elements as the two contiguous chunks `buf[front:count]`
then `buf[:back]` with `front` reset to 0 and `back` to `count`, and
preserves the logical order; consequently pushing `cap + 1` items into an
empty queue of capacity `cap` yields capacity `2 * cap` with the live
sequence equal to the push order. -/
theorem claim_C2_growth_preserves_order (q q0 : Queue Nat) (item : Nat)
    (l : List Nat) :
    (q.wf → q.count = q.cap → 0 < q.cap →
      q.grow = ⟨0, q.count, q.count, q.cap * 2,
        q.buf.drop q.front ++ (q.buf.take q.front ++ List.replicate q.cap 0)⟩ ∧
      (q.push item).cap = q.cap * 2 ∧
      (q.push item).toSeq = q.toSeq ++ [item]) ∧
    (q0.wf → q0.count = 0 → 0 < q0.cap → l.length = q0.cap + 1 →
      (q0.pushAll l).cap = q0.cap * 2 ∧ (q0.pushAll l).toSeq = l) := by
  constructor
  · intro hw hfull hpos
    obtain ⟨h1, h2, h3, h4⟩ := Queue.push_spec q item hw
    refine ⟨Queue.grow_full q hw hfull hpos, ?_, h1⟩
    rw [h4, if_neg (by omega), if_pos hfull]
  · intro hw hempty hpos hlen
    have hne : l ≠ [] := by
      intro h
      rw [h] at hlen
      simp at hlen
    have hdecomp : l.dropLast ++ [l.getLast hne] = l := List.dropLast_append_getLast hne
    have hlen1 : l.dropLast.length = q0.cap := by
      rw [List.length_dropLast, hlen]
      omega
    obtain ⟨ha1, ha2, ha3⟩ := Queue.pushAll_spec q0 l.dropLast hw
    have hcapm : (q0.pushAll l.dropLast).cap = q0.cap :=
      pushAll_cap q0 l.dropLast hw (by omega)
    have hfull1 : (q0.pushAll l.dropLast).count = (q0.pushAll l.dropLast).cap := by
      rw [ha3, hcapm, hempty, hlen1]
      simp
    obtain ⟨hp1, hp2, hp3, hp4⟩ :=
      Queue.push_spec (q0.pushAll l.dropLast) (l.getLast hne) ha2
    have hsplit : q0.pushAll l = (q0.pushAll l.dropLast).push (l.getLast hne) := by
      conv_lhs => rw [← hdecomp]
      simp [Queue.pushAll]
    have hts0 : q0.toSeq = [] := by
      have := Queue.toSeq_length q0
      rw [hempty] at this
      exact List.length_eq_zero.mp this
    constructor
    · rw [hsplit, hp4, if_neg (by omega), if_pos hfull1, hcapm]
    · rw [hsplit, hp1, ha1, hts0]
      simpa using hdecomp

/-- C2 witness: a full queue of capacity 2 holding `[1, 2]`, and pushing
`[5, 6, 7]` into an empty queue of capacity 2. -/
theorem claim_C2_witness :
    ((Queue.pushAll (NewQueue 0 (some 2)) [1, 2]).push 9).cap = 4 ∧
    ((Queue.pushAll (NewQueue 0 (some 2)) [1, 2]).push 9).toSeq = [1, 2, 9] ∧
    (Queue.pushAll (NewQueue 0 (some 2)) [5, 6, 7]).cap = 4 ∧
    (Queue.pushAll (NewQueue 0 (some 2)) [5, 6, 7]).toSeq = [5, 6, 7] := by
  have h1 := (claim_C2_growth_preserves_order
    (Queue.pushAll (NewQueue 0 (some 2)) [1, 2]) (NewQueue 0 (some 2)) 9 []).1
    (by decide) (by decide) (by decide)
  have h2 := (claim_C2_growth_preserves_order
    (Queue.pushAll (NewQueue 0 (some 2)) [1, 2]) (NewQueue 0 (some 2)) 9 [5, 6, 7]).2
    (by decide) (by decide) (by decide) (by decide)
  refine ⟨?_, by rw [h1.2.2]; decide, by rw [h2.1]; decide, h2.2⟩
  rw [h1.2.1]
  decide

/-- C5 (code bug evidence): on the wrapped queue built by the
repository's own test `TestQueue_ReplaceWithWrapping` (capacity 8, eight
pushes, four pops, three more pushes, so `front = 4`, `count = 7`),
`Replace(0, v)` hits the fatal out-of-range branch even though logical
position 0 (the front element) exists, and `Replace(5, v)` overwrites the
raw slot 5 — logical position 1 — instead of logical position 5. -/
theorem claim_C5_replace_uses_raw_index :
    (Queue.pushAll (Queue.popDrop (Queue.popDrop (Queue.popDrop (Queue.popDrop
        (Queue.pushAll (NewQueue 0 (some 8)) [1, 2, 3, 4, 5, 6, 7, 8])))))
        [9, 10, 11]).front = 4 ∧
    (Queue.pushAll (Queue.popDrop (Queue.popDrop (Queue.popDrop (Queue.popDrop
        (Queue.pushAll (NewQueue 0 (some 8)) [1, 2, 3, 4, 5, 6, 7, 8])))))
        [9, 10, 11]).count = 7 ∧
    (Queue.pushAll (Queue.popDrop (Queue.popDrop (Queue.popDrop (Queue.popDrop
        (Queue.pushAll (NewQueue 0 (some 8)) [1, 2, 3, 4, 5, 6, 7, 8])))))
        [9, 10, 11]).toSeq = [5, 6, 7, 8, 9, 10, 11] ∧
    (Queue.pushAll (Queue.popDrop (Queue.popDrop (Queue.popDrop (Queue.popDrop
        (Queue.pushAll (NewQueue 0 (some 8)) [1, 2, 3, 4, 5, 6, 7, 8])))))
        [9, 10, 11]).Replace 0 99 = none ∧
    ((Queue.pushAll (Queue.popDrop (Queue.popDrop (Queue.popDrop (Queue.popDrop
        (Queue.pushAll (NewQueue 0 (some 8)) [1, 2, 3, 4, 5, 6, 7, 8])))))
        [9, 10, 11]).Replace 5 99).map Queue.toSeq =
      some [5, 99, 7, 8, 9, 10, 11] := by
  refine ⟨by decide, by decide, by decide, by decide, by decide⟩

/-- C6 counterexample: after pushing `[1, 2, 3, 4]` into a capacity-4
queue and popping once, the state has `back = 0` with `count = 3 < cap`;
the newest live element is 4, yet `Back()` returns 3 — the claim that
`Back` returns the newest element in every configuration with `back = 0`
fails on this input. -/
theorem claim_C6_counterexample :
    (Queue.popDrop (Queue.pushAll (NewQueue 0 (some 4)) [1, 2, 3, 4])).back = 0 ∧
    (Queue.popDrop (Queue.pushAll (NewQueue 0 (some 4)) [1, 2, 3, 4])).count = 3 ∧
    (Queue.popDrop (Queue.pushAll (NewQueue 0 (some 4)) [1, 2, 3, 4])).cap = 4 ∧
    (Queue.popDrop (Queue.pushAll (NewQueue 0 (some 4)) [1, 2, 3, 4])).toSeq
      = [2, 3, 4] ∧
    (Queue.popDrop (Queue.pushAll (NewQueue 0 (some 4)) [1, 2, 3, 4])).toSeq.getLast?
      = some 4 ∧
    (Queue.popDrop (Queue.pushAll (NewQueue 0 (some 4)) [1, 2, 3, 4])).Back
      = some 3 := by
  refine ⟨by decide, by decide, by decide, by decide, by decide, by decide⟩

/-- C6 (amended): `Front` returns the oldest live element and `Front`
and `Back` signal the fatal violation exactly on an empty queue; `Back`
returns the newest live element whenever `back ≠ 0`, and also when
`back = 0` with the queue full, but when `back = 0` and `count < cap` it
reads the raw slot `count - 1`, which need not hold the newest element.
Neither call mutates the queue (they are pure observers in this
embedding, matching the source, which only reads `buf`). -/
theorem claim_C6_front_back_amended (q : Queue Nat) :
    (q.wf → q.Front = q.toSeq.head?) ∧
    (q.count = 0 → q.Front = none ∧ q.Back = none) ∧
    (0 < q.count → q.Front ≠ none ∧ q.Back ≠ none) ∧
    (q.wf → 0 < q.count → q.back ≠ 0 → q.Back = q.toSeq.getLast?) ∧
    (q.wf → 0 < q.count → q.back = 0 →
      q.Back = some (q.buf.getD (q.count - 1) 0) ∧
      (q.count = q.cap → q.Back = q.toSeq.getLast?)) := by
  refine ⟨fun hw => Queue.Front_eq_head q hw, ?_, ?_, ?_, ?_⟩
  · intro hc
    unfold Queue.Front Queue.Back
    rw [if_pos hc, if_pos hc]
    exact ⟨rfl, rfl⟩
  · intro hc
    unfold Queue.Front Queue.Back
    rw [if_neg (by omega), if_neg (by omega)]
    constructor
    · simp
    · split <;> simp
  · intro hw hc hb
    exact (Queue.Back_spec q hw hc).1 hb
  · intro hw hc hb
    exact ⟨(Queue.Back_spec q hw hc).2.1 hb,
      fun hfull => (Queue.Back_spec q hw hc).2.2 hb hfull⟩

/-- C6 witness: the amended theorem evaluated on a full wrapped
capacity-4 queue (where `back = 0` and `Back` does return the newest
element) and on a queue with `back ≠ 0`. -/
theorem claim_C6_witness :
    (Queue.pushAll (NewQueue 0 (some 4)) [1, 2, 3, 4]).Back = some 4 ∧
    (Queue.pushAll (NewQueue 0 (some 4)) [1, 2, 3]).Back = some 3 ∧
    (Queue.pushAll (NewQueue 0 (some 4)) [1, 2, 3]).Front = some 1 ∧
    (NewQueue (0 : Nat) (some 4)).Front = none := by
  have hfull := (claim_C6_front_back_amended
    (Queue.pushAll (NewQueue 0 (some 4)) [1, 2, 3, 4])).2.2.2.2
    (by decide) (by decide) (by decide)
  have hmid := (claim_C6_front_back_amended
    (Queue.pushAll (NewQueue 0 (some 4)) [1, 2, 3])).2.2.2.1
    (by decide) (by decide) (by decide)
  have hfr := (claim_C6_front_back_amended
    (Queue.pushAll (NewQueue 0 (some 4)) [1, 2, 3])).1 (by decide)
  have hemp := (claim_C6_front_back_amended (NewQueue (0 : Nat) (some 4))).2.1
    (by decide)
  refine ⟨?_, ?_, ?_, hemp.1⟩
  · rw [hfull.2 (by decide)]
    decide
  · rw [hmid]
    decide
  · rw [hfr]
    decide

/-- C7 counterexample: construction is one of the listed operations, yet
a queue constructed without a size hint (and likewise with hint 0) has
`cap = 0`, which is not a power of two, refuting "cap is always a power
of two". -/
theorem claim_C7_counterexample :
    (NewQueue (0 : Nat) none).cap = 0 ∧
    isPowerOf2 ((NewQueue (0 : Nat) none).cap) = false ∧
    (NewQueue (0 : Nat) (some 0)).cap = 0 ∧
    isPowerOf2 ((NewQueue (0 : Nat) (some 0)).cap) = false := by
  refine ⟨rfl, rfl, by decide, by decide⟩

/-- C7 (amended): every operation establishes or preserves the amended
invariant — `NewQueue` (any `uint32` hint, or none), `Push`, `Pop` and
`Clear` — with FIFO order preserved by `Push`/`Pop`, and the capacity
never decreasing (`Push` keeps or grows it, `Pop` and `Clear` keep it
exactly), where `cap` is a power of two whenever it is non-zero. -/
theorem claim_C7_invariants_amended (d : Nat) (s : Nat) (q : Queue Nat)
    (item : Nat) :
    capInv (NewQueue d none) ∧
    (s < 2 ^ 32 → capInv (NewQueue d (some s))) ∧
    (capInv q →
      capInv (q.push item) ∧ q.cap ≤ (q.push item).cap ∧
      (q.push item).toSeq = q.toSeq ++ [item]) ∧
    (capInv q → 0 < q.count →
      capInv q.popRest ∧ q.popRest.cap = q.cap ∧
      q.toSeq = q.buf.getD q.front 0 :: q.popRest.toSeq) ∧
    (capInv q → capInv q.Clear ∧ q.Clear.cap = q.cap ∧ q.Clear.count = 0) ∧
    (capInv q → q.count ≤ q.cap ∧
      (0 < q.count → q.front < q.cap ∧ q.back < q.cap)) := by
  refine ⟨?_, ?_, ?_, ?_, ?_, ?_⟩
  · exact ⟨(Queue.newQueue_wf d none).1, Or.inl rfl⟩
  · intro hs
    refine ⟨(Queue.newQueue_wf d (some s)).1, ?_⟩
    show (if isPowerOf2 s then s else ceilPow2 s) = 0 ∨
      ∃ k, (if isPowerOf2 s then s else ceilPow2 s) = 2 ^ k
    by_cases hp : isPowerOf2 s = true
    · rw [if_pos hp]
      exact Or.inr ((isPowerOf2_iff s).mp hp)
    · rw [if_neg hp]
      by_cases hz : s = 0
      · subst hz
        exact Or.inl (by decide)
      · by_cases hbig : s ≤ 2 ^ 31
        · exact Or.inr ⟨(s - 1).size, ceilPow2_in_range s (by omega) hbig⟩
        · exact Or.inl (ceilPow2_wrap s (by omega) hs)
  · rintro ⟨hw, hcap⟩
    obtain ⟨h1, h2, h3, h4⟩ := Queue.push_spec q item hw
    refine ⟨⟨h2, ?_⟩, ?_, h1⟩
    · rw [h4]
      by_cases hz : q.cap = 0
      · rw [if_pos hz]
        exact Or.inr ⟨6, rfl⟩
      · rw [if_neg hz]
        by_cases hfull : q.count = q.cap
        · rw [if_pos hfull]
          rcases hcap with hcap | ⟨k, hk⟩
          · exact absurd hcap hz
          · exact Or.inr ⟨k + 1, by rw [hk, Nat.pow_succ]⟩
        · rw [if_neg hfull]
          exact hcap
    · rw [h4]
      by_cases hz : q.cap = 0
      · rw [if_pos hz, hz]
        exact Nat.zero_le _
      · rw [if_neg hz]
        by_cases hfull : q.count = q.cap
        · rw [if_pos hfull]
          omega
        · rw [if_neg hfull]
  · rintro ⟨hw, hcap⟩ hne
    obtain ⟨hp1, hp2, hp3, hp4, hp5⟩ := Queue.pop_spec q hw hne
    exact ⟨⟨hp3, hp4 ▸ hcap⟩, hp4, hp2⟩
  · rintro ⟨hw, hcap⟩
    obtain ⟨hc1, hc2, hc3, hc4⟩ := Queue.clear_spec q hw
    exact ⟨⟨hc1, hc2 ▸ hcap⟩, hc2, hc3⟩
  · rintro ⟨hw, hcap⟩
    obtain ⟨hlen, hcnt, hzero, hball⟩ := hw
    refine ⟨hcnt, fun hc => ?_⟩
    have hpos : 0 < q.cap := by
      rcases Nat.eq_zero_or_pos q.cap with h | h
      · obtain ⟨h0, _, _, _⟩ := hzero h
        omega
      · exact h
    obtain ⟨hf, hb, _⟩ := hball hpos
    exact ⟨hf, hb⟩

/-- C7 witness: the amended invariant checked through a concrete
construct-push-pop-clear sequence on a capacity-4 queue. -/
theorem claim_C7_witness :
    capInv (NewQueue 0 (some 4)) ∧
    capInv ((NewQueue 0 (some 4)).push 1) ∧
    (NewQueue 0 (some 4)).cap ≤ ((NewQueue 0 (some 4)).push 1).cap ∧
    capInv ((NewQueue 0 (some 4)).push 1).popRest ∧
    capInv ((NewQueue 0 (some 4)).push 1).Clear ∧
    ((NewQueue 0 (some 4)).push 1).Clear.cap = 4 := by
  have h0 := (claim_C7_invariants_amended 0 4 (NewQueue 0 (some 4)) 1).2.1
    (by norm_num)
  have h1 := (claim_C7_invariants_amended 0 4 (NewQueue 0 (some 4)) 1).2.2.1 h0
  have h2 := (claim_C7_invariants_amended 0 4 ((NewQueue 0 (some 4)).push 1) 1).2.2.2.1
    h1.1 (by decide)
  have h3 := (claim_C7_invariants_amended 0 4 ((NewQueue 0 (some 4)).push 1) 1).2.2.2.2.1
    h1.1
  exact ⟨h0, h1.1, h1.2.1, h2.1, h3.1, by rw [h3.2.1]; decide⟩

/-- C1 (code bug evidence): with `maxParallelism = 1` and two tasks
submitted before `Wait()`, the pool admits a schedule in which `Wait()`
returns while task 2 is still sitting, never executed, in the work
queue: the coordinator dispatches task 1 and spawns the only worker,
stages task 2 into the waiting queue, the worker runs task 1, observes
the work queue empty and retires; the coordinator then promotes task 2
from the waiting queue into the work queue — the promotion path spawns
no worker — and, once `Wait()` raises the waiting flag, stops, passes
`wg.Wait()` (no live workers) and closes `doneCh`.  The final state has
`tasksDone = 1 ≠ 2 = tasksSubmitted` and a non-empty work queue, against
the claim. -/
theorem claim_C1_wait_can_strand_promoted_task :
    StepStar (mkPool 1 (some 1) [some 1, some 2])
      { maxThreads := 1
        submitQueue := []
        waitingQueue := []
        workQueue := [2]
        threadCount := 0
        tasksSubmitted := 2
        tasksDone := 1
        tasksQueued := 1
        routinesSpawned := 1
        routinesFinished := 1
        waiting := 1
        blocked := true
        wgCount := 0
        doneClosed := true
        workers := 0
        running := false
        coord := CoordPC.finished
        main := MainPC.returned } ∧
    (1 : Nat) ≠ 2 ∧ ([2] : List Nat) ≠ [] := by
  refine ⟨?_, by decide, by decide⟩
  refine Relation.ReflTransGen.head (Step.mainSubmit _ (some 1) [some 2] rfl) ?_
  refine Relation.ReflTransGen.head (Step.mainSubmit _ (some 2) [] rfl) ?_
  refine Relation.ReflTransGen.head (Step.coordSkipWaiting _ rfl rfl rfl) ?_
  refine Relation.ReflTransGen.head (Step.coordPopSubmitHit _ 1 [2] rfl rfl) ?_
  refine Relation.ReflTransGen.head (Step.coordDispatch _ 1 rfl (by decide)) ?_
  refine Relation.ReflTransGen.head (Step.coordSkipWaiting _ rfl rfl rfl) ?_
  refine Relation.ReflTransGen.head (Step.coordPopSubmitHit _ 2 [] rfl rfl) ?_
  refine Relation.ReflTransGen.head (Step.coordStage _ 2 rfl (by decide)) ?_
  refine Relation.ReflTransGen.head (Step.workerRun _ 1 [] (by decide) rfl) ?_
  refine Relation.ReflTransGen.head (Step.workerRetire _ (by decide) rfl) ?_
  refine Relation.ReflTransGen.head (Step.coordSeeWaiting _ rfl rfl (by decide)) ?_
  refine Relation.ReflTransGen.head (Step.coordDrainPopHit _ 2 [] rfl rfl) ?_
  refine Relation.ReflTransGen.head (Step.coordDrainPushWork _ 2 rfl) ?_
  refine Relation.ReflTransGen.head (Step.coordDrainPopSubmitMiss _ rfl rfl) ?_
  refine Relation.ReflTransGen.head (Step.coordDrainPopMiss _ rfl rfl) ?_
  refine Relation.ReflTransGen.head (Step.mainWait _ rfl) ?_
  refine Relation.ReflTransGen.head (Step.coordSkipWaiting _ rfl rfl rfl) ?_
  refine Relation.ReflTransGen.head (Step.coordPopSubmitMiss _ rfl rfl) ?_
  refine Relation.ReflTransGen.head (Step.coordObserveWaitFlag _ rfl (by decide)) ?_
  refine Relation.ReflTransGen.head (Step.coordLoopExit _ rfl rfl) ?_
  refine Relation.ReflTransGen.head (Step.coordFinish _ rfl rfl) ?_
  refine Relation.ReflTransGen.head (Step.mainUnblock _ rfl rfl) ?_
  exact Relation.ReflTransGen.refl

end WorkerPool
